import Mathlib

/-!
Verification of the `hoop` ring buffer (src/src/lib.rs): a fixed-capacity
circular FIFO buffer with `write`, `overwrite`, `pop`, `clear` and a
double-ended, non-mutating iterator.

The Rust code is embedded shallowly: `Vec<Option<T>>` becomes
`List (Option T)`, `usize` cursors become `Nat`, and every method becomes a
pure function returning its result together with the updated state.  Indexing
`self.inner[i]` is total here (`List.getD` with default `none`); the separate
`...Checked` wrappers make the Rust bound check (panic on out of bounds)
explicit as an `Option`.
-/

namespace Hoops

/-- Rust `enum WriteResult { Done, TooMany }`. -/
inductive WriteResult where
  | Done : WriteResult
  | TooMany : WriteResult
deriving DecidableEq, Repr

/-- Rust `struct Hoop<T> { inner: Vec<Option<T>>, read_position: usize,
write_position: usize }`. -/
structure Hoop (T : Type) where
  inner : List (Option T)
  read_position : Nat
  write_position : Nat
deriving DecidableEq, Repr

namespace Hoop

variable {T : Type}

/-- Rust `Hoop::capacity`: the size of the backing vector
(`vec![None; capacity]` allocates exactly `capacity` cells). -/
def capacity (s : Hoop T) : Nat :=
  s.inner.length

/-- Rust `Hoop::with_capacity`: all cells empty, both cursors at 0.
Note the source performs no check on `capacity`. -/
def withCapacity (T : Type) (capacity : Nat) : Hoop T :=
  { inner := List.replicate capacity none
    read_position := 0
    write_position := 0 }

/-- Rust `Hoop::advance`: `if current + 1 == capacity { 0 } else { current + 1 }`. -/
def advance (s : Hoop T) (current : Nat) : Nat :=
  if current + 1 = s.capacity then 0 else current + 1

/-- Rust `Hoop::retreat`: `if current == 0 { capacity - 1 } else { current - 1 }`. -/
def retreat (s : Hoop T) (current : Nat) : Nat :=
  if current = 0 then s.capacity - 1 else current - 1

/-- Rust `Hoop::pop`: `inner[read_position].take()`; on `Some`, advance the
read cursor.  `take` on an empty cell leaves the cell empty and the state
unchanged. -/
def pop (s : Hoop T) : Option T × Hoop T :=
  match s.inner.getD s.read_position none with
  | some x =>
      (some x,
        { s with
            inner := s.inner.set s.read_position none
            read_position := s.advance s.read_position })
  | none => (none, s)

/-- Rust `Hoop::write`: reject with `TooMany` when the cell at the write
cursor is occupied, else store the item and advance the write cursor. -/
def write (s : Hoop T) (item : T) : WriteResult × Hoop T :=
  match s.inner.getD s.write_position none with
  | some _ => (WriteResult.TooMany, s)
  | none =>
      (WriteResult.Done,
        { s with
            inner := s.inner.set s.write_position (some item)
            write_position := s.advance s.write_position })

/-- Rust `Hoop::overwrite`: when the cell at the write cursor is occupied,
first advance the read cursor (evicting the oldest element); then
unconditionally store the item and advance the write cursor. -/
def overwrite (s : Hoop T) (item : T) : Hoop T :=
  let s1 :=
    match s.inner.getD s.write_position none with
    | some _ => { s with read_position := s.advance s.read_position }
    | none => s
  { s1 with
      inner := s1.inner.set s.write_position (some item)
      write_position := s1.advance s.write_position }

/-- Rust `Hoop::clear`: reset both cursors to 0 and set every cell to `None`. -/
def clear (s : Hoop T) : Hoop T :=
  { inner := s.inner.map (fun _ => none)
    read_position := 0
    write_position := 0 }

/-- Rust `self.inner[self.read_position]` panics when the index is out of
bounds; `none` models that panic. -/
def popChecked (s : Hoop T) : Option (Option T × Hoop T) :=
  if s.read_position < s.inner.length then some s.pop else none

/-- Rust `self.inner[self.write_position]` in `write` panics when the index
is out of bounds; `none` models that panic. -/
def writeChecked (s : Hoop T) (item : T) : Option (WriteResult × Hoop T) :=
  if s.write_position < s.inner.length then some (s.write item) else none

/-- Rust `self.inner[self.write_position]` in `overwrite` panics when the
index is out of bounds; `none` models that panic. -/
def overwriteChecked (s : Hoop T) (item : T) : Option (Hoop T) :=
  if s.write_position < s.inner.length then some (s.overwrite item) else none

end Hoop

variable {T : Type}

/-- One mutating call on the buffer. -/
inductive Op (T : Type) where
  | write : T → Op T
  | overwrite : T → Op T
  | pop : Op T
  | clear : Op T
deriving DecidableEq, Repr

/-- Apply one mutating call, keeping only the state. -/
def applyOp (s : Hoop T) : Op T → Hoop T
  | Op.write x => (s.write x).2
  | Op.overwrite x => s.overwrite x
  | Op.pop => s.pop.2
  | Op.clear => s.clear

/-- Run a sequence of mutating calls from a state. -/
def runOps (s : Hoop T) : List (Op T) → Hoop T
  | [] => s
  | op :: ops => runOps (applyOp s op) ops

/-- The cell holding the `i`-th oldest element: offset `i` from the read
cursor, with wraparound. -/
def cellAt (c : Nat) (s : Hoop T) (i : Nat) : Option T :=
  s.inner.getD ((s.read_position + i) % c) none

/-- The occupied cells read from the read cursor forward with wraparound, in
order: the logical content of the buffer. -/
def content (s : Hoop T) : List T :=
  (List.range s.capacity).filterMap (cellAt s.capacity s)

/-- Rust `struct Iter<T>`: a reading view of a buffer with a forward and a
backward cursor and the two `seeking` flags. -/
structure Iter (T : Type) where
  hoop : Hoop T
  forward_position : Nat
  seeking_forward : Bool
  backward_position : Nat
  seeking_backward : Bool
deriving DecidableEq, Repr

namespace Iter

variable {T : Type}

/-- Rust `Iter::new`: forward cursor at the read cursor, backward cursor one
slot before the write cursor, both flags down. -/
def new (hoop : Hoop T) : Iter T :=
  { hoop := hoop
    forward_position := hoop.read_position
    seeking_forward := false
    backward_position := hoop.retreat hoop.write_position
    seeking_backward := false }

/-- Rust `Iterator::next` for `Iter`. -/
def next (it : Iter T) : Option T × Iter T :=
  if it.seeking_forward ∧ it.forward_position = it.hoop.read_position then
    (none, it)
  else if it.seeking_forward ∧ it.backward_position < it.forward_position then
    (none, it)
  else
    match it.hoop.inner.getD it.forward_position none with
    | some item =>
        (some item,
          { it with
              forward_position := it.hoop.advance it.forward_position
              seeking_forward := true })
    | none => (none, it)

/-- Rust `DoubleEndedIterator::next_back` for `Iter`. -/
def nextBack (it : Iter T) : Option T × Iter T :=
  if it.seeking_backward ∧ it.backward_position = it.hoop.write_position then
    (none, it)
  else
    let ahead_of_reader := it.hoop.read_position < it.backward_position
    if it.seeking_backward ∧ ahead_of_reader ∧ it.backward_position < it.forward_position then
      (none, it)
    else
      match it.hoop.inner.getD it.backward_position none with
      | some item =>
          (some item,
            { it with
                backward_position := it.hoop.retreat it.backward_position
                seeking_backward := true })
      | none => (none, it)

end Iter

/-- Which end of the iterator a call drives. -/
inductive Call where
  | front : Call
  | back : Call
deriving DecidableEq, Repr

/-- One iterator call. -/
def stepCall (it : Iter T) : Call → Option T × Iter T
  | Call.front => it.next
  | Call.back => it.nextBack

/-- Drive one iterator by a sequence of calls, collecting the yields. -/
def runCalls (it : Iter T) : List Call → List (Option T) × Iter T
  | [] => ([], it)
  | c :: cs =>
      let r := stepCall it c
      let rest := runCalls r.2 cs
      (r.1 :: rest.1, rest.2)

/-- Write a list of items in order, collecting the write results. -/
def writeSeq (s : Hoop T) : List T → List WriteResult × Hoop T
  | [] => ([], s)
  | x :: xs =>
      let r := s.write x
      let rest := writeSeq r.2 xs
      (r.1 :: rest.1, rest.2)

/-- Pop `n` times, collecting the results. -/
def popSeq (s : Hoop T) : Nat → List (Option T) × Hoop T
  | 0 => ([], s)
  | n + 1 =>
      let r := s.pop
      let rest := popSeq r.2 n
      (r.1 :: rest.1, rest.2)

/-- Modelled from the spec: the logical FIFO content after one call, per the
spec's description of `write` (append unless full), `overwrite` (append,
evicting the oldest when full), `pop` (drop the oldest) and `clear`. -/
def fifoStep (c : Nat) (l : List T) : Op T → List T
  | Op.write x => if l.length < c then l ++ [x] else l
  | Op.overwrite x => if l.length < c then l ++ [x] else l.tail ++ [x]
  | Op.pop => l.tail
  | Op.clear => []

/-- Modelled from the spec: the logical FIFO content after a call sequence. -/
def fifoRun (c : Nat) (l : List T) : List (Op T) → List T
  | [] => l
  | op :: ops => fifoRun c (fifoStep c l op) ops

/-!
## The coupling invariant

`Abs c s l` couples a buffer state `s` of capacity `c` with its logical FIFO
content `l`: the cell at offset `i` from the read cursor (with wraparound)
holds the `i`-th oldest element, and all cells at offsets past `l.length` are
empty.
-/

def Abs (c : Nat) (s : Hoop T) (l : List T) : Prop :=
  s.capacity = c ∧
  s.read_position < c ∧
  s.write_position = (s.read_position + l.length) % c ∧
  l.length ≤ c ∧
  ∀ i, i < c → cellAt c s i = l[i]?

/-! ### Arithmetic helpers -/

theorem advance_eq_mod (s : Hoop T) (c : Nat) (hcap : s.capacity = c) (i : Nat)
    (hi : i < c) : s.advance i = (i + 1) % c := by
  unfold Hoop.advance
  rw [hcap]
  by_cases h : i + 1 = c
  · rw [if_pos h, h, Nat.mod_self]
  · rw [if_neg h, Nat.mod_eq_of_lt (by omega)]

theorem retreat_lt (s : Hoop T) (c : Nat) (hcap : s.capacity = c) (hc : 1 ≤ c)
    (i : Nat) (hi : i < c) : s.retreat i < c := by
  unfold Hoop.retreat
  rw [hcap]
  by_cases h : i = 0
  · rw [if_pos h]; omega
  · rw [if_neg h]; omega

theorem add_mod_inj (c a i j : Nat) (hi : i < c) (hj : j < c)
    (h : (a + i) % c = (a + j) % c) : i = j := by
  have h2 : i ≡ j [MOD c] := Nat.ModEq.add_left_cancel (Nat.ModEq.refl a) h
  have h3 : i % c = j % c := h2
  rwa [Nat.mod_eq_of_lt hi, Nat.mod_eq_of_lt hj] at h3

/-! ### List helpers -/

theorem getD_set_ne (ls : List (Option T)) (i j : Nat) (a : Option T) (h : i ≠ j) :
    (ls.set i a).getD j none = ls.getD j none := by
  rw [List.getD_eq_getElem?_getD, List.getD_eq_getElem?_getD, List.getElem?_set_ne h]

theorem getD_set_self (ls : List (Option T)) (i : Nat) (a : Option T)
    (h : i < ls.length) : (ls.set i a).getD i none = a := by
  rw [List.getD_eq_getElem?_getD, List.getElem?_set_self h]
  rfl

theorem filterMap_const_none {α β : Type} (l : List α) :
    l.filterMap (fun _ => (none : Option β)) = [] := by
  induction l with
  | nil => rfl
  | cons a l ih => simp [List.filterMap_cons, ih]

theorem filterMap_range_getElem {α : Type} (l : List α) (c : Nat) (h : l.length ≤ c) :
    (List.range c).filterMap (fun i => l[i]?) = l := by
  induction l generalizing c with
  | nil =>
      simp only [List.getElem?_nil]
      exact filterMap_const_none _
  | cons x xs ih =>
      obtain ⟨k, rfl⟩ : ∃ k, c = k + 1 := ⟨c - 1, by simp at h; omega⟩
      rw [List.range_succ_eq_map, List.filterMap_cons]
      simp only [List.getElem?_cons_zero]
      rw [List.filterMap_map]
      have hfun : ((fun i => (x :: xs)[i]?) ∘ Nat.succ) = fun i => xs[i]? := by
        funext i
        simp [Function.comp, List.getElem?_cons_succ]
      rw [hfun, ih k (by simp at h; omega)]

/-! ### Cell lemmas under the invariant -/

theorem cellAt_zero (c : Nat) (s : Hoop T) (hrp : s.read_position < c) :
    cellAt c s 0 = s.inner.getD s.read_position none := by
  unfold cellAt
  rw [Nat.add_zero, Nat.mod_eq_of_lt hrp]

theorem abs_cell_rp (c : Nat) (s : Hoop T) (l : List T) (h : Abs c s l) :
    s.inner.getD s.read_position none = l[0]? := by
  obtain ⟨hcap, hrp, hwp, hlen, hocc⟩ := h
  rw [← cellAt_zero c s hrp]
  exact hocc 0 (by omega)

theorem abs_cell_wp_notfull (c : Nat) (s : Hoop T) (l : List T) (h : Abs c s l)
    (hlt : l.length < c) : s.inner.getD s.write_position none = none := by
  obtain ⟨hcap, hrp, hwp, hlen, hocc⟩ := h
  rw [hwp]
  have := hocc l.length hlt
  unfold cellAt at this
  rw [this]
  exact List.getElem?_eq_none (by omega)

theorem abs_cell_wp_full (c : Nat) (s : Hoop T) (l : List T)
    (h : Abs c s l) (hfull : l.length = c) :
    s.inner.getD s.write_position none = l[0]? := by
  have hwp := h.2.2.1
  have hrp := h.2.1
  rw [hwp, hfull, Nat.add_mod_right, Nat.mod_eq_of_lt hrp]
  exact abs_cell_rp c s l h

/-! ### Operation lemmas under the invariant -/

theorem pop_nil_eq (c : Nat) (s : Hoop T) (h : Abs c s []) : s.pop = (none, s) := by
  have hcell := abs_cell_rp c s [] h
  simp only [List.getElem?_nil] at hcell
  unfold Hoop.pop
  rw [hcell]

theorem pop_cons_abs (c : Nat) (hc : 1 ≤ c) (s : Hoop T) (x : T) (l : List T)
    (h : Abs c s (x :: l)) : s.pop.1 = some x ∧ Abs c s.pop.2 l := by
  obtain ⟨hcap, hrp, hwp, hlen, hocc⟩ := h
  have hcell : s.inner.getD s.read_position none = some x := by
    rw [abs_cell_rp c s (x :: l) ⟨hcap, hrp, hwp, hlen, hocc⟩]
    exact List.getElem?_cons_zero
  have hlen2 : l.length + 1 ≤ c := by simpa using hlen
  unfold Hoop.pop
  rw [hcell]
  refine ⟨rfl, ?_, ?_, ?_, ?_, ?_⟩
  · simpa [Hoop.capacity, List.length_set] using hcap
  · simp only
    rw [advance_eq_mod s c hcap s.read_position hrp]
    exact Nat.mod_lt _ (by omega)
  · simp only
    rw [advance_eq_mod s c hcap s.read_position hrp, Nat.mod_add_mod, hwp]
    have : s.read_position + 1 + l.length = s.read_position + (x :: l).length := by
      simp; omega
    rw [this]
  · omega
  · intro i hi
    unfold cellAt
    simp only
    rw [advance_eq_mod s c hcap s.read_position hrp, Nat.mod_add_mod]
    by_cases hi2 : i + 1 = c
    · have hidx : (s.read_position + 1 + i) % c = s.read_position := by
        have : s.read_position + 1 + i = s.read_position + c := by omega
        rw [this, Nat.add_mod_right, Nat.mod_eq_of_lt hrp]
      rw [hidx, getD_set_self s.inner s.read_position none (by
        have h3 : s.inner.length = c := hcap
        omega)]
      have : l.length ≤ i := by omega
      exact (List.getElem?_eq_none this).symm
    · have hne : s.read_position ≠ (s.read_position + 1 + i) % c := by
        intro heq
        have h0 : (s.read_position + 0) % c = (s.read_position + (i + 1)) % c := by
          rw [Nat.add_zero, Nat.mod_eq_of_lt hrp]
          rw [show s.read_position + 1 + i = s.read_position + (i + 1) by omega] at heq
          exact heq
        have := add_mod_inj c s.read_position 0 (i + 1) (by omega) (by omega) h0
        omega
      rw [getD_set_ne s.inner s.read_position _ none hne]
      have := hocc (i + 1) (by omega)
      unfold cellAt at this
      rw [show s.read_position + 1 + i = s.read_position + (i + 1) by omega]
      rw [this]
      exact List.getElem?_cons_succ

theorem write_notfull_abs (c : Nat) (hc : 1 ≤ c) (s : Hoop T) (l : List T) (x : T)
    (h : Abs c s l) (hlt : l.length < c) :
    (s.write x).1 = WriteResult.Done ∧ Abs c (s.write x).2 (l ++ [x]) := by
  obtain ⟨hcap, hrp, hwp, hlen, hocc⟩ := h
  have hcell := abs_cell_wp_notfull c s l ⟨hcap, hrp, hwp, hlen, hocc⟩ hlt
  have hwplt : s.write_position < c := by rw [hwp]; exact Nat.mod_lt _ (by omega)
  unfold Hoop.write
  rw [hcell]
  refine ⟨rfl, ?_, ?_, ?_, ?_, ?_⟩
  · simpa [Hoop.capacity, List.length_set] using hcap
  · exact hrp
  · simp only
    rw [advance_eq_mod s c hcap s.write_position hwplt, hwp, Nat.mod_add_mod]
    have hl1 : (l ++ [x]).length = l.length + 1 := by simp
    rw [hl1, ← Nat.add_assoc]
  · simp [List.length_append]; omega
  · intro i hi
    unfold cellAt
    simp only
    by_cases hie : i = l.length
    · subst hie
      have hidx : (s.read_position + l.length) % c = s.write_position := hwp.symm
      rw [hidx, getD_set_self s.inner s.write_position (some x) (by
        have h3 : s.inner.length = c := hcap
        omega)]
      exact (List.getElem?_concat_length l x).symm
    · have hne : s.write_position ≠ (s.read_position + i) % c := by
        intro heq
        rw [hwp] at heq
        exact hie (add_mod_inj c s.read_position i l.length hi hlt heq.symm)
      rw [getD_set_ne s.inner s.write_position _ (some x) hne]
      have := hocc i hi
      unfold cellAt at this
      rw [this]
      rw [List.getElem?_append]
      by_cases hil : i < l.length
      · rw [if_pos hil]
      · rw [if_neg hil]
        have h1 : l[i]? = none := List.getElem?_eq_none (by omega)
        have h2 : [x][i - l.length]? = none := List.getElem?_eq_none (by simp; omega)
        rw [h1, h2]

theorem write_full_eq (c : Nat) (hc : 1 ≤ c) (s : Hoop T) (l : List T) (x : T)
    (h : Abs c s l) (hfull : l.length = c) :
    s.write x = (WriteResult.TooMany, s) := by
  have hcell := abs_cell_wp_full c s l h hfull
  obtain ⟨y, hy⟩ : ∃ y, l[0]? = some y := by
    have : 0 < l.length := by omega
    exact ⟨l[0], List.getElem?_eq_some_iff.mpr ⟨this, rfl⟩⟩
  unfold Hoop.write
  rw [hcell, hy]

theorem overwrite_eq_write (c : Nat) (s : Hoop T) (l : List T) (x : T)
    (h : Abs c s l) (hlt : l.length < c) :
    s.overwrite x = (s.write x).2 := by
  have hcell := abs_cell_wp_notfull c s l h hlt
  unfold Hoop.overwrite Hoop.write
  rw [hcell]

theorem overwrite_full_state (s : Hoop T) (x y : T)
    (hcell : s.inner.getD s.write_position none = some y) :
    s.overwrite x =
      { inner := s.inner.set s.write_position (some x)
        read_position := s.advance s.read_position
        write_position := s.advance s.write_position } := by
  unfold Hoop.overwrite
  rw [hcell]
  rfl

theorem overwrite_full_abs (c : Nat) (hc : 1 ≤ c) (s : Hoop T) (l : List T) (x : T)
    (h : Abs c s l) (hfull : l.length = c) :
    Abs c (s.overwrite x) (l.tail ++ [x]) := by
  obtain ⟨hcap, hrp, hwp, hlen, hocc⟩ := h
  have hcell := abs_cell_wp_full c s l ⟨hcap, hrp, hwp, hlen, hocc⟩ hfull
  obtain ⟨y, hy⟩ : ∃ y, l[0]? = some y := by
    have : 0 < l.length := by omega
    exact ⟨l[0], List.getElem?_eq_some_iff.mpr ⟨this, rfl⟩⟩
  have hwprp : s.write_position = s.read_position := by
    rw [hwp, hfull, Nat.add_mod_right, Nat.mod_eq_of_lt hrp]
  have htail : l.tail.length = c - 1 := by
    rw [List.length_tail, hfull]
  rw [overwrite_full_state s x y (hy ▸ hcell)]
  refine ⟨?_, ?_, ?_, ?_, ?_⟩
  · simpa [Hoop.capacity, List.length_set] using hcap
  · simp only
    rw [advance_eq_mod s c hcap s.read_position hrp]
    exact Nat.mod_lt _ (by omega)
  · simp only
    rw [advance_eq_mod s c hcap s.read_position hrp]
    have hlen3 : (l.tail ++ [x]).length = c := by simp [htail]; omega
    rw [hlen3, hwprp, advance_eq_mod s c hcap s.read_position hrp,
      Nat.add_mod_right]
    rw [Nat.mod_eq_of_lt (Nat.mod_lt _ (by omega : 0 < c))]
  · simp [htail]; omega
  · intro i hi
    unfold cellAt
    simp only
    rw [advance_eq_mod s c hcap s.read_position hrp, Nat.mod_add_mod, hwprp]
    by_cases hi2 : i + 1 = c
    · have hidx : (s.read_position + 1 + i) % c = s.read_position := by
        have : s.read_position + 1 + i = s.read_position + c := by omega
        rw [this, Nat.add_mod_right, Nat.mod_eq_of_lt hrp]
      rw [hidx, getD_set_self s.inner s.read_position (some x) (by
        have h3 : s.inner.length = c := hcap
        omega)]
      have : i = l.tail.length := by omega
      rw [this]
      exact (List.getElem?_concat_length l.tail x).symm
    · have hne : s.read_position ≠ (s.read_position + 1 + i) % c := by
        intro heq
        have h0 : (s.read_position + 0) % c = (s.read_position + (i + 1)) % c := by
          rw [Nat.add_zero, Nat.mod_eq_of_lt hrp]
          rw [show s.read_position + 1 + i = s.read_position + (i + 1) by omega] at heq
          exact heq
        have := add_mod_inj c s.read_position 0 (i + 1) (by omega) (by omega) h0
        omega
      rw [getD_set_ne s.inner s.read_position _ (some x) hne]
      have := hocc (i + 1) (by omega)
      unfold cellAt at this
      rw [show s.read_position + 1 + i = s.read_position + (i + 1) by omega]
      rw [this]
      rw [List.getElem?_append, if_pos (by omega : i < l.tail.length)]
      cases l with
      | nil => simp at hfull; omega
      | cons a l2 => simp

theorem clear_eq_withCapacity (s : Hoop T) : s.clear = Hoop.withCapacity T s.capacity := by
  unfold Hoop.clear Hoop.withCapacity Hoop.capacity
  have : s.inner.map (fun _ => (none : Option T)) = List.replicate s.inner.length none := by
    have h2 : (fun _ : Option T => (none : Option T)) = Function.const (Option T) none := rfl
    rw [h2, List.map_const]
  rw [this]

theorem abs_init (c : Nat) (hc : 1 ≤ c) : Abs c (Hoop.withCapacity T c) [] := by
  refine ⟨?_, ?_, ?_, ?_, ?_⟩
  · simp [Hoop.withCapacity, Hoop.capacity]
  · simpa [Hoop.withCapacity] using hc
  · simp [Hoop.withCapacity]
  · simp
  · intro i hi
    unfold cellAt
    simp only [Hoop.withCapacity]
    rw [List.getD_eq_getElem?_getD, List.getElem?_replicate]
    by_cases h : (0 + i) % c < c
    · rw [if_pos h]; rfl
    · rw [if_neg h]; rfl

theorem content_eq_of_abs (c : Nat) (s : Hoop T) (l : List T) (h : Abs c s l) :
    content s = l := by
  obtain ⟨hcap, hrp, hwp, hlen, hocc⟩ := h
  unfold content
  rw [hcap]
  have hcongr : (List.range c).filterMap (cellAt c s)
      = (List.range c).filterMap (fun i => l[i]?) := by
    apply List.filterMap_congr
    intro i hi
    exact hocc i (List.mem_range.mp hi)
  rw [hcongr]
  exact filterMap_range_getElem l c hlen

/-! ### Preservation along operation sequences -/

theorem abs_step (c : Nat) (hc : 1 ≤ c) (s : Hoop T) (l : List T) (h : Abs c s l)
    (op : Op T) : Abs c (applyOp s op) (fifoStep c l op) := by
  cases op with
  | write x =>
      by_cases hlt : l.length < c
      · rw [show applyOp s (Op.write x) = (s.write x).2 from rfl,
          show fifoStep c l (Op.write x) = l ++ [x] by simp only [fifoStep]; rw [if_pos hlt]]
        exact (write_notfull_abs c hc s l x h hlt).2
      · have hfull : l.length = c := by have := h.2.2.2.1; omega
        rw [show applyOp s (Op.write x) = (s.write x).2 from rfl,
          write_full_eq c hc s l x h hfull,
          show fifoStep c l (Op.write x) = l by simp only [fifoStep]; rw [if_neg hlt]]
        exact h
  | overwrite x =>
      by_cases hlt : l.length < c
      · rw [show applyOp s (Op.overwrite x) = s.overwrite x from rfl,
          overwrite_eq_write c s l x h hlt,
          show fifoStep c l (Op.overwrite x) = l ++ [x] by
            simp only [fifoStep]; rw [if_pos hlt]]
        exact (write_notfull_abs c hc s l x h hlt).2
      · have hfull : l.length = c := by have := h.2.2.2.1; omega
        rw [show applyOp s (Op.overwrite x) = s.overwrite x from rfl,
          show fifoStep c l (Op.overwrite x) = l.tail ++ [x] by
            simp only [fifoStep]; rw [if_neg hlt]]
        exact overwrite_full_abs c hc s l x h hfull
  | pop =>
      cases l with
      | nil =>
          rw [show applyOp s Op.pop = s.pop.2 from rfl, pop_nil_eq c s h]
          exact h
      | cons x l2 =>
          rw [show applyOp s Op.pop = s.pop.2 from rfl]
          exact (pop_cons_abs c hc s x l2 h).2
  | clear =>
      rw [show applyOp s Op.clear = s.clear from rfl, clear_eq_withCapacity s, h.1]
      exact abs_init c hc

theorem abs_run (c : Nat) (hc : 1 ≤ c) (ops : List (Op T)) (s : Hoop T) (l : List T)
    (h : Abs c s l) : Abs c (runOps s ops) (fifoRun c l ops) := by
  induction ops generalizing s l with
  | nil => exact h
  | cons op ops ih => exact ih (applyOp s op) (fifoStep c l op) (abs_step c hc s l h op)

theorem abs_reach (c : Nat) (hc : 1 ≤ c) (ops : List (Op T)) :
    Abs c (runOps (Hoop.withCapacity T c) ops) (fifoRun c [] ops) :=
  abs_run c hc ops (Hoop.withCapacity T c) [] (abs_init c hc)

/-! ### Write and pop sequences -/

theorem writeSeq_ok (c : Nat) (hc : 1 ≤ c) (items : List T) (s : Hoop T) (l : List T)
    (h : Abs c s l) (hle : l.length + items.length ≤ c) :
    (writeSeq s items).1 = List.replicate items.length WriteResult.Done ∧
    Abs c (writeSeq s items).2 (l ++ items) := by
  induction items generalizing s l with
  | nil =>
      refine ⟨rfl, ?_⟩
      simpa using h
  | cons x xs ih =>
      have hlt : l.length < c := by simp at hle; omega
      obtain ⟨h1, h2⟩ := write_notfull_abs c hc s l x h hlt
      have hle2 : (l ++ [x]).length + xs.length ≤ c := by simp at hle ⊢; omega
      obtain ⟨ih1, ih2⟩ := ih (s.write x).2 (l ++ [x]) h2 hle2
      refine ⟨?_, ?_⟩
      · simp only [writeSeq]
        rw [h1, ih1]
        simp [List.replicate_succ]
      · simp only [writeSeq]
        simpa [List.append_assoc] using ih2

theorem popSeq_empty (c : Nat) (k : Nat) (s : Hoop T) (h : Abs c s []) :
    popSeq s k = (List.replicate k none, s) := by
  induction k with
  | zero => rfl
  | succ k ih =>
      simp only [popSeq, pop_nil_eq c s h, List.replicate_succ]
      rw [ih]

theorem popSeq_ok (c : Nat) (hc : 1 ≤ c) (l : List T) (k : Nat) (s : Hoop T)
    (h : Abs c s l) :
    (popSeq s (l.length + k)).1 = l.map some ++ List.replicate k none := by
  induction l generalizing s with
  | nil =>
      simp only [List.length_nil, Nat.zero_add, List.map_nil, List.nil_append]
      rw [popSeq_empty c k s (by simpa using h)]
  | cons x xs ih =>
      obtain ⟨h1, h2⟩ := pop_cons_abs c hc s x xs h
      have hn : (x :: xs).length + k = (xs.length + k) + 1 := by simp; omega
      rw [hn]
      simp only [popSeq]
      rw [h1, ih s.pop.2 h2]
      simp

/-! ### Iterator frame and bounds -/

theorem next_hoop (it : Iter T) : it.next.2.hoop = it.hoop := by
  unfold Iter.next
  by_cases h1 : it.seeking_forward ∧ it.forward_position = it.hoop.read_position
  · rw [if_pos h1]
  · rw [if_neg h1]
    by_cases h2 : it.seeking_forward ∧ it.backward_position < it.forward_position
    · rw [if_pos h2]
    · rw [if_neg h2]
      cases hcell : it.hoop.inner.getD it.forward_position none with
      | some item => simp [hcell]
      | none => simp [hcell]

theorem nextBack_hoop (it : Iter T) : it.nextBack.2.hoop = it.hoop := by
  unfold Iter.nextBack
  by_cases h1 : it.seeking_backward ∧ it.backward_position = it.hoop.write_position
  · rw [if_pos h1]
  · rw [if_neg h1]
    simp only
    by_cases h2 : it.seeking_backward ∧ it.hoop.read_position < it.backward_position ∧
        it.backward_position < it.forward_position
    · rw [if_pos h2]
    · rw [if_neg h2]
      cases hcell : it.hoop.inner.getD it.backward_position none with
      | some item => simp [hcell]
      | none => simp [hcell]

theorem stepCall_hoop (it : Iter T) (call : Call) :
    (stepCall it call).2.hoop = it.hoop := by
  cases call with
  | front => exact next_hoop it
  | back => exact nextBack_hoop it

theorem runCalls_hoop (cs : List Call) (it : Iter T) :
    (runCalls it cs).2.hoop = it.hoop := by
  induction cs generalizing it with
  | nil => rfl
  | cons call cs ih =>
      simp only [runCalls]
      rw [ih (stepCall it call).2, stepCall_hoop it call]

/-- Both iterator cursors of `it` lie below `c`, and its buffer has
capacity `c`. -/
def IterBounds (c : Nat) (it : Iter T) : Prop :=
  it.hoop.capacity = c ∧ it.forward_position < c ∧ it.backward_position < c

theorem advance_lt (s : Hoop T) (c : Nat) (hcap : s.capacity = c) (hc : 1 ≤ c)
    (i : Nat) (hi : i < c) : s.advance i < c := by
  rw [advance_eq_mod s c hcap i hi]
  exact Nat.mod_lt _ (by omega)

theorem next_bounds (c : Nat) (hc : 1 ≤ c) (it : Iter T) (h : IterBounds c it) :
    IterBounds c it.next.2 := by
  obtain ⟨hcap, hf, hb⟩ := h
  unfold Iter.next
  by_cases h1 : it.seeking_forward ∧ it.forward_position = it.hoop.read_position
  · rw [if_pos h1]; exact ⟨hcap, hf, hb⟩
  · rw [if_neg h1]
    by_cases h2 : it.seeking_forward ∧ it.backward_position < it.forward_position
    · rw [if_pos h2]; exact ⟨hcap, hf, hb⟩
    · rw [if_neg h2]
      cases hcell : it.hoop.inner.getD it.forward_position none with
      | some item =>
          simp only [hcell]
          exact ⟨hcap, advance_lt it.hoop c hcap hc _ hf, hb⟩
      | none => simp only [hcell]; exact ⟨hcap, hf, hb⟩

theorem nextBack_bounds (c : Nat) (hc : 1 ≤ c) (it : Iter T) (h : IterBounds c it) :
    IterBounds c it.nextBack.2 := by
  obtain ⟨hcap, hf, hb⟩ := h
  unfold Iter.nextBack
  by_cases h1 : it.seeking_backward ∧ it.backward_position = it.hoop.write_position
  · rw [if_pos h1]; exact ⟨hcap, hf, hb⟩
  · rw [if_neg h1]
    simp only
    by_cases h2 : it.seeking_backward ∧ it.hoop.read_position < it.backward_position ∧
        it.backward_position < it.forward_position
    · rw [if_pos h2]; exact ⟨hcap, hf, hb⟩
    · rw [if_neg h2]
      cases hcell : it.hoop.inner.getD it.backward_position none with
      | some item =>
          simp only [hcell]
          exact ⟨hcap, hf, retreat_lt it.hoop c hcap hc _ hb⟩
      | none => simp only [hcell]; exact ⟨hcap, hf, hb⟩

theorem runCalls_bounds (c : Nat) (hc : 1 ≤ c) (cs : List Call) (it : Iter T)
    (h : IterBounds c it) : IterBounds c (runCalls it cs).2 := by
  induction cs generalizing it with
  | nil => exact h
  | cons call cs ih =>
      simp only [runCalls]
      apply ih
      cases call with
      | front => exact next_bounds c hc it h
      | back => exact nextBack_bounds c hc it h

theorem iterNew_bounds (c : Nat) (hc : 1 ≤ c) (s : Hoop T) (l : List T)
    (h : Abs c s l) : IterBounds c (Iter.new s) := by
  obtain ⟨hcap, hrp, hwp, hlen, hocc⟩ := h
  refine ⟨hcap, hrp, ?_⟩
  have hwplt : s.write_position < c := by
    rw [hwp]; exact Nat.mod_lt _ (by omega)
  exact retreat_lt s c hcap hc s.write_position hwplt

theorem withCapacity_pop (c : Nat) :
    (Hoop.withCapacity T c).pop = (none, Hoop.withCapacity T c) := by
  have hcell : (Hoop.withCapacity T c).inner.getD
      (Hoop.withCapacity T c).read_position none = none := by
    show (List.replicate c (none : Option T)).getD 0 none = none
    rw [List.getD_eq_getElem?_getD, List.getElem?_replicate]
    by_cases h : 0 < c
    · rw [if_pos h]; rfl
    · rw [if_neg h]; rfl
  unfold Hoop.pop
  rw [hcell]

/-!
## Claims
-/

/-- Claim C1 is refuted on the code: the iterator does not yield every
occupied cell.  Two concrete runs: on a full capacity-2 buffer holding
`[1, 2]`, a back-only traversal yields only `2` and never yields the oldest
cell `1`; on a wrapped capacity-3 buffer holding `[2, 3, 4]`, a front-only
traversal yields only `2` and never yields `3` or `4`. -/
theorem iter_drops_occupied_cells :
    (content (runOps (Hoop.withCapacity Nat 2) [Op.write 1, Op.write 2]) = [1, 2] ∧
      (runCalls (Iter.new (runOps (Hoop.withCapacity Nat 2) [Op.write 1, Op.write 2]))
        [Call.back, Call.back]).1 = [some 2, none]) ∧
    (content (runOps (Hoop.withCapacity Nat 3)
        [Op.write 1, Op.write 2, Op.write 3, Op.pop, Op.write 4]) = [2, 3, 4] ∧
      (runCalls (Iter.new (runOps (Hoop.withCapacity Nat 3)
          [Op.write 1, Op.write 2, Op.write 3, Op.pop, Op.write 4]))
        [Call.front, Call.front, Call.front]).1 = [some 2, none, none]) := by
  decide

/-- Claim C2: every state reachable from `with_capacity c` (`c ≥ 1`) by
`write`/`overwrite`/`pop`/`clear` keeps both cursors in `[0, c)`, is
logically empty iff the cell at the read cursor is empty, logically full iff
the cell at the write cursor is occupied, and its occupied cells, read
forward from the read cursor with wraparound, are exactly the logical FIFO
content in insertion order. -/
theorem reachable_state_invariants (T : Type) (c : Nat) (hc : 1 ≤ c)
    (ops : List (Op T)) :
    (runOps (Hoop.withCapacity T c) ops).read_position < c ∧
    (runOps (Hoop.withCapacity T c) ops).write_position < c ∧
    ((runOps (Hoop.withCapacity T c) ops).inner.getD
        (runOps (Hoop.withCapacity T c) ops).read_position none = none ↔
      content (runOps (Hoop.withCapacity T c) ops) = []) ∧
    (((runOps (Hoop.withCapacity T c) ops).inner.getD
        (runOps (Hoop.withCapacity T c) ops).write_position none).isSome ↔
      (content (runOps (Hoop.withCapacity T c) ops)).length = c) ∧
    (∀ i, i < c → cellAt c (runOps (Hoop.withCapacity T c) ops) i
      = (fifoRun c [] ops)[i]?) ∧
    content (runOps (Hoop.withCapacity T c) ops) = fifoRun c [] ops := by
  have habs := abs_reach (T := T) c hc ops
  have hcont := content_eq_of_abs _ _ _ habs
  obtain ⟨hcap, hrp, hwp, hlen, hocc⟩ := habs
  have hwplt : (runOps (Hoop.withCapacity T c) ops).write_position < c := by
    rw [hwp]; exact Nat.mod_lt _ (by omega)
  refine ⟨hrp, hwplt, ?_, ?_, hocc, hcont⟩
  · rw [abs_cell_rp c _ _ ⟨hcap, hrp, hwp, hlen, hocc⟩, hcont]
    cases fifoRun c [] ops with
    | nil => simp
    | cons y l2 => simp
  · rw [hcont]
    by_cases hlt : (fifoRun c [] ops).length < c
    · rw [abs_cell_wp_notfull c _ _ ⟨hcap, hrp, hwp, hlen, hocc⟩ hlt]
      simp
      omega
    · have hfull : (fifoRun c [] ops).length = c := by omega
      rw [abs_cell_wp_full c _ _ ⟨hcap, hrp, hwp, hlen, hocc⟩ hfull]
      obtain ⟨y, hy⟩ : ∃ y, (fifoRun c [] ops)[0]? = some y := by
        have : 0 < (fifoRun c [] ops).length := by omega
        exact ⟨_, List.getElem?_eq_some_iff.mpr ⟨this, rfl⟩⟩
      simp [hy, hfull]

theorem reachable_state_invariants_witness :
    (runOps (Hoop.withCapacity Nat 2) [Op.write 5]).read_position < 2 ∧
    (runOps (Hoop.withCapacity Nat 2) [Op.write 5]).write_position < 2 ∧
    ((runOps (Hoop.withCapacity Nat 2) [Op.write 5]).inner.getD
        (runOps (Hoop.withCapacity Nat 2) [Op.write 5]).read_position none = none ↔
      content (runOps (Hoop.withCapacity Nat 2) [Op.write 5]) = []) ∧
    (((runOps (Hoop.withCapacity Nat 2) [Op.write 5]).inner.getD
        (runOps (Hoop.withCapacity Nat 2) [Op.write 5]).write_position none).isSome ↔
      (content (runOps (Hoop.withCapacity Nat 2) [Op.write 5])).length = 2) ∧
    (∀ i, i < 2 → cellAt 2 (runOps (Hoop.withCapacity Nat 2) [Op.write 5]) i
      = (fifoRun 2 [] [Op.write 5])[i]?) ∧
    content (runOps (Hoop.withCapacity Nat 2) [Op.write 5])
      = fifoRun 2 [] [Op.write 5] :=
  reachable_state_invariants Nat 2 (by decide) [Op.write 5]

/-- Claim C3, counterexample: `with_capacity 0` is not rejected.  It returns
an ordinary buffer — the code has no construction error at all — and the
first `pop` on that buffer reaches the out-of-bounds (panic) branch instead
of failing at construction time. -/
theorem with_capacity_zero_returns_buffer :
    Hoop.withCapacity Nat 0
      = { inner := [], read_position := 0, write_position := 0 } ∧
    Hoop.popChecked (Hoop.withCapacity Nat 0) = none := by
  exact ⟨rfl, rfl⟩

/-- Claim C3 as amended: `with_capacity` never fails — it returns a buffer
for every capacity, including 0 — and for capacity at least 1 no reachable
`pop`, `write` or `overwrite` can reach the out-of-bounds branch. -/
theorem construction_unchecked_ops_total (T : Type) (c : Nat) (hc : 1 ≤ c)
    (ops : List (Op T)) (x : T) :
    (Hoop.withCapacity T c).capacity = c ∧
    (Hoop.popChecked (runOps (Hoop.withCapacity T c) ops)).isSome ∧
    (Hoop.writeChecked (runOps (Hoop.withCapacity T c) ops) x).isSome ∧
    (Hoop.overwriteChecked (runOps (Hoop.withCapacity T c) ops) x).isSome := by
  obtain ⟨hcap, hrp, hwp, hlen, hocc⟩ := abs_reach (T := T) c hc ops
  have hilen : (runOps (Hoop.withCapacity T c) ops).inner.length = c := hcap
  have hwplt : (runOps (Hoop.withCapacity T c) ops).write_position < c := by
    rw [hwp]; exact Nat.mod_lt _ (by omega)
  refine ⟨by simp [Hoop.withCapacity, Hoop.capacity], ?_, ?_, ?_⟩
  · unfold Hoop.popChecked
    rw [if_pos (by omega)]
    rfl
  · unfold Hoop.writeChecked
    rw [if_pos (by omega)]
    rfl
  · unfold Hoop.overwriteChecked
    rw [if_pos (by omega)]
    rfl

theorem construction_unchecked_ops_total_witness :
    (Hoop.withCapacity Nat 1).capacity = 1 ∧
    (Hoop.popChecked (runOps (Hoop.withCapacity Nat 1) [Op.write 7])).isSome ∧
    (Hoop.writeChecked (runOps (Hoop.withCapacity Nat 1) [Op.write 7]) 9).isSome ∧
    (Hoop.overwriteChecked (runOps (Hoop.withCapacity Nat 1) [Op.write 7]) 9).isSome :=
  construction_unchecked_ops_total Nat 1 (by decide) [Op.write 7] 9

/-- Claim C4: writing `n ≤ c` items into a fresh buffer of capacity `c ≥ 1`
returns `Done` for every write, and `n + 1` pops then return exactly the
written items in order followed by `none`. -/
theorem fifo_write_pop_roundtrip (T : Type) (c : Nat) (hc : 1 ≤ c)
    (items : List T) (hn : items.length ≤ c) :
    (writeSeq (Hoop.withCapacity T c) items).1
      = List.replicate items.length WriteResult.Done ∧
    (popSeq (writeSeq (Hoop.withCapacity T c) items).2 (items.length + 1)).1
      = items.map some ++ [none] := by
  obtain ⟨h1, h2⟩ := writeSeq_ok c hc items (Hoop.withCapacity T c) []
    (abs_init c hc) (by simpa using hn)
  refine ⟨h1, ?_⟩
  have h3 : Abs c (writeSeq (Hoop.withCapacity T c) items).2 items := by
    simpa using h2
  have h4 := popSeq_ok c hc items 1 (writeSeq (Hoop.withCapacity T c) items).2 h3
  simpa using h4

theorem fifo_write_pop_roundtrip_witness :
    (writeSeq (Hoop.withCapacity Nat 2) [3, 4]).1
      = List.replicate ([3, 4] : List Nat).length WriteResult.Done ∧
    (popSeq (writeSeq (Hoop.withCapacity Nat 2) [3, 4]).2
        (([3, 4] : List Nat).length + 1)).1
      = ([3, 4] : List Nat).map some ++ [none] :=
  fifo_write_pop_roundtrip Nat 2 (by decide) [3, 4] (by decide)

/-- Claim C5: `overwrite` always succeeds.  On a non-full reachable buffer it
produces exactly the state `write` would produce; on a full one it advances
the read cursor (discarding the oldest element), stores the item at the write
cursor and advances the write cursor, so the logical content becomes the old
content without its head, with the new item appended as newest. -/
theorem overwrite_always_succeeds (T : Type) (c : Nat) (hc : 1 ≤ c)
    (ops : List (Op T)) (x : T) :
    ((content (runOps (Hoop.withCapacity T c) ops)).length < c →
      (runOps (Hoop.withCapacity T c) ops).overwrite x
        = ((runOps (Hoop.withCapacity T c) ops).write x).2) ∧
    ((content (runOps (Hoop.withCapacity T c) ops)).length = c →
      (runOps (Hoop.withCapacity T c) ops).overwrite x
          = { inner := (runOps (Hoop.withCapacity T c) ops).inner.set
                (runOps (Hoop.withCapacity T c) ops).write_position (some x)
              read_position := (runOps (Hoop.withCapacity T c) ops).advance
                (runOps (Hoop.withCapacity T c) ops).read_position
              write_position := (runOps (Hoop.withCapacity T c) ops).advance
                (runOps (Hoop.withCapacity T c) ops).write_position } ∧
      content ((runOps (Hoop.withCapacity T c) ops).overwrite x)
        = (content (runOps (Hoop.withCapacity T c) ops)).tail ++ [x]) := by
  have habs := abs_reach (T := T) c hc ops
  have hcont := content_eq_of_abs _ _ _ habs
  constructor
  · intro hlt
    rw [hcont] at hlt
    exact overwrite_eq_write c _ _ x habs hlt
  · intro hfull
    rw [hcont] at hfull
    have hcell := abs_cell_wp_full c _ _ habs hfull
    obtain ⟨y, hy⟩ : ∃ y, (fifoRun c [] ops)[0]? = some y := by
      have : 0 < (fifoRun c [] ops).length := by omega
      exact ⟨_, List.getElem?_eq_some_iff.mpr ⟨this, rfl⟩⟩
    refine ⟨overwrite_full_state _ x y (hy ▸ hcell), ?_⟩
    rw [content_eq_of_abs c _ _ (overwrite_full_abs c hc _ _ x habs hfull), hcont]

theorem overwrite_always_succeeds_witness :
    ((content (runOps (Hoop.withCapacity Nat 1) [Op.write 7])).length < 1 →
      (runOps (Hoop.withCapacity Nat 1) [Op.write 7]).overwrite 9
        = ((runOps (Hoop.withCapacity Nat 1) [Op.write 7]).write 9).2) ∧
    ((content (runOps (Hoop.withCapacity Nat 1) [Op.write 7])).length = 1 →
      (runOps (Hoop.withCapacity Nat 1) [Op.write 7]).overwrite 9
          = { inner := (runOps (Hoop.withCapacity Nat 1) [Op.write 7]).inner.set
                (runOps (Hoop.withCapacity Nat 1) [Op.write 7]).write_position (some 9)
              read_position := (runOps (Hoop.withCapacity Nat 1) [Op.write 7]).advance
                (runOps (Hoop.withCapacity Nat 1) [Op.write 7]).read_position
              write_position := (runOps (Hoop.withCapacity Nat 1) [Op.write 7]).advance
                (runOps (Hoop.withCapacity Nat 1) [Op.write 7]).write_position } ∧
      content ((runOps (Hoop.withCapacity Nat 1) [Op.write 7]).overwrite 9)
        = (content (runOps (Hoop.withCapacity Nat 1) [Op.write 7])).tail ++ [9]) :=
  overwrite_always_succeeds Nat 1 (by decide) [Op.write 7] 9

/-- Claim C6: `write` into a reachable buffer holding exactly `c` items
returns `TooMany` and leaves the whole state — every cell and both
cursors — unchanged. -/
theorem write_full_rejected (T : Type) (c : Nat) (hc : 1 ≤ c) (ops : List (Op T))
    (x : T) (hfull : (content (runOps (Hoop.withCapacity T c) ops)).length = c) :
    (runOps (Hoop.withCapacity T c) ops).write x
      = (WriteResult.TooMany, runOps (Hoop.withCapacity T c) ops) := by
  have habs := abs_reach (T := T) c hc ops
  have hcont := content_eq_of_abs _ _ _ habs
  rw [hcont] at hfull
  exact write_full_eq c hc _ _ x habs hfull

theorem write_full_rejected_witness :
    (runOps (Hoop.withCapacity Nat 1) [Op.write 7]).write 9
      = (WriteResult.TooMany, runOps (Hoop.withCapacity Nat 1) [Op.write 7]) :=
  write_full_rejected Nat 1 (by decide) [Op.write 7] 9 (by decide)

/-- Claim C7: on a capacity-4 buffer holding `[1, 2, 3, 4]`, the call
sequence next, next_back, next, next_back, next, next_back yields
`1, 4, 2, 3, none, none`. -/
theorem interleaved_traversal_cap4 :
    (runCalls (Iter.new (runOps (Hoop.withCapacity Nat 4)
        [Op.write 1, Op.write 2, Op.write 3, Op.write 4]))
      [Call.front, Call.back, Call.front, Call.back, Call.front, Call.back]).1
      = [some 1, some 4, some 2, some 3, none, none] := by
  decide

/-- Claim C8: `clear` produces exactly the state of a freshly constructed
buffer of the same capacity; in particular capacity is preserved, every
subsequent operation sequence behaves identically, and the next `pop`
returns nothing. -/
theorem clear_behaves_like_fresh (T : Type) (s : Hoop T) (ops : List (Op T)) :
    s.clear = Hoop.withCapacity T s.capacity ∧
    s.clear.capacity = s.capacity ∧
    runOps s.clear ops = runOps (Hoop.withCapacity T s.capacity) ops ∧
    s.clear.pop.1 = none := by
  have h := clear_eq_withCapacity s
  refine ⟨h, ?_, by rw [h], ?_⟩
  · simp [Hoop.clear, Hoop.capacity]
  · rw [h, withCapacity_pop]

/-- Claim C9: neither `next` nor `next_back` changes the underlying buffer,
a whole call sequence leaves the buffer of a fresh iterator untouched, and
two iterators in the same state driven by the same calls produce the same
yields. -/
theorem iter_never_mutates_buffer (T : Type) (it : Iter T) (call : Call)
    (h : Hoop T) (cs : List Call) (it1 it2 : Iter T) (heq : it1 = it2) :
    (stepCall it call).2.hoop = it.hoop ∧
    (runCalls (Iter.new h) cs).2.hoop = h ∧
    (runCalls it1 cs).1 = (runCalls it2 cs).1 := by
  refine ⟨stepCall_hoop it call, ?_, by rw [heq]⟩
  rw [runCalls_hoop cs (Iter.new h)]
  rfl

theorem iter_never_mutates_buffer_witness :
    (stepCall (Iter.new (Hoop.withCapacity Nat 2)) Call.front).2.hoop
      = (Iter.new (Hoop.withCapacity Nat 2)).hoop ∧
    (runCalls (Iter.new (Hoop.withCapacity Nat 2)) [Call.front, Call.back]).2.hoop
      = Hoop.withCapacity Nat 2 ∧
    (runCalls (Iter.new (Hoop.withCapacity Nat 2)) [Call.front, Call.back]).1
      = (runCalls (Iter.new (Hoop.withCapacity Nat 2)) [Call.front, Call.back]).1 :=
  iter_never_mutates_buffer Nat (Iter.new (Hoop.withCapacity Nat 2)) Call.front
    (Hoop.withCapacity Nat 2) [Call.front, Call.back]
    (Iter.new (Hoop.withCapacity Nat 2)) (Iter.new (Hoop.withCapacity Nat 2)) rfl

/-- Claim C10: from any reachable state of a buffer with capacity `c ≥ 1`,
every slot index the operations use stays in `[0, c)` — both buffer cursors,
the bound checks of `pop`, `write` and `overwrite`, and both iterator
cursors after any call sequence — while with capacity 0 construction itself
succeeds and the first `pop`, `write` or `overwrite` reaches the
out-of-bounds (panic) branch. -/
theorem index_bounds_and_zero_capacity (T : Type) (c : Nat) (hc : 1 ≤ c)
    (ops : List (Op T)) (cs : List Call) (x : T) :
    (runOps (Hoop.withCapacity T c) ops).read_position < c ∧
    (runOps (Hoop.withCapacity T c) ops).write_position < c ∧
    (Hoop.popChecked (runOps (Hoop.withCapacity T c) ops)).isSome ∧
    (Hoop.writeChecked (runOps (Hoop.withCapacity T c) ops) x).isSome ∧
    (Hoop.overwriteChecked (runOps (Hoop.withCapacity T c) ops) x).isSome ∧
    (runCalls (Iter.new (runOps (Hoop.withCapacity T c) ops)) cs).2.forward_position < c ∧
    (runCalls (Iter.new (runOps (Hoop.withCapacity T c) ops)) cs).2.backward_position < c ∧
    Hoop.popChecked (Hoop.withCapacity T 0) = none ∧
    Hoop.writeChecked (Hoop.withCapacity T 0) x = none ∧
    Hoop.overwriteChecked (Hoop.withCapacity T 0) x = none := by
  have habs := abs_reach (T := T) c hc ops
  have hiter := runCalls_bounds c hc cs (Iter.new (runOps (Hoop.withCapacity T c) ops))
    (iterNew_bounds c hc _ _ habs)
  obtain ⟨hcap, hrp, hwp, hlen, hocc⟩ := habs
  have hilen : (runOps (Hoop.withCapacity T c) ops).inner.length = c := hcap
  have hwplt : (runOps (Hoop.withCapacity T c) ops).write_position < c := by
    rw [hwp]; exact Nat.mod_lt _ (by omega)
  refine ⟨hrp, hwplt, ?_, ?_, ?_, hiter.2.1, hiter.2.2, rfl, rfl, rfl⟩
  · unfold Hoop.popChecked
    rw [if_pos (by omega)]
    rfl
  · unfold Hoop.writeChecked
    rw [if_pos (by omega)]
    rfl
  · unfold Hoop.overwriteChecked
    rw [if_pos (by omega)]
    rfl

theorem index_bounds_and_zero_capacity_witness :
    (runOps (Hoop.withCapacity Nat 2) [Op.write 5]).read_position < 2 ∧
    (runOps (Hoop.withCapacity Nat 2) [Op.write 5]).write_position < 2 ∧
    (Hoop.popChecked (runOps (Hoop.withCapacity Nat 2) [Op.write 5])).isSome ∧
    (Hoop.writeChecked (runOps (Hoop.withCapacity Nat 2) [Op.write 5]) 9).isSome ∧
    (Hoop.overwriteChecked (runOps (Hoop.withCapacity Nat 2) [Op.write 5]) 9).isSome ∧
    (runCalls (Iter.new (runOps (Hoop.withCapacity Nat 2) [Op.write 5]))
        [Call.front, Call.back]).2.forward_position < 2 ∧
    (runCalls (Iter.new (runOps (Hoop.withCapacity Nat 2) [Op.write 5]))
        [Call.front, Call.back]).2.backward_position < 2 ∧
    Hoop.popChecked (Hoop.withCapacity Nat 0) = none ∧
    Hoop.writeChecked (Hoop.withCapacity Nat 0) 9 = none ∧
    Hoop.overwriteChecked (Hoop.withCapacity Nat 0) 9 = none :=
  index_bounds_and_zero_capacity Nat 2 (by decide) [Op.write 5]
    [Call.front, Call.back] 9

end Hoops
